import Mathlib

/-!
# The service registry of `pkg/service/misc.go`

A shallow embedding of the `Services` registry: a Go `map[string]*Service`
with its operations `Service`, `AllServices`, `add`, `remove`, `AllMethods`,
`Method` and `stopAll`, followed by theorems about them.

Conventions of the embedding.

* A Go pointer `*T` is an `Option T`; `nil` is `none`.  Structs are values, so
  a struct copy is the value itself.  This is the level of `Services`, on
  which what the operations compute is stated.
* Where a property speaks of what a call leaves untouched (the map, the stored
  struct behind a copy, the calls issued), the pointers are kept: `World` holds
  the memory of the structs, the map from IDs to addresses and the log of
  `Stop` and `wait` calls, and every operation returns the state after it.
  The section "The two levels agree" relates it to `Services`.
* A Go `error` is an `Option String`; `nil` is `none` and `errors.New msg` is
  `some msg`.
* A Go map is a finite list of bindings with pairwise distinct keys.  The
  order in which `range` visits the bindings is not fixed by the language, so
  every loop over a map takes the order of its visit as an argument
  (`RangeOrder`).
* The `sync.RWMutex` and the `lg` logging calls have no effect on the values
  computed and are left out: the embedding is of one call running alone.
-/

namespace Alkasir

/-! ## Data model -/

/-- Modelled from the spec: the declaration of `Method` is outside `misc.go`.
The spec gives it the attribute `ID`; `misc.go` reads no other field.  The
field `rest` stands for whatever else the record carries, so that two methods
with the same `ID` can still be told apart. -/
structure Method where
  ID : String
  rest : Nat
deriving DecidableEq, Repr

/-- Modelled from the spec: the declaration of `Methods` is outside `misc.go`.
The code ranges over its field `list` and tests each element against `nil`,
so `list` is a collection of `*Method`. -/
structure Methods where
  list : List (Option Method)
deriving DecidableEq, Repr

/-- Modelled from the spec: the declaration of `Service` is outside `misc.go`.
The code reads the fields `ID` and `Methods` only. -/
structure Service where
  ID : String
  Methods : Methods
deriving DecidableEq, Repr

/-- Modelled from the spec: `Service.copy` is defined outside `misc.go`.  The
spec describes it as a copy of the top-level struct; on values that is the
record with the same fields. -/
def Service.copy (s : Service) : Service :=
  { ID := s.ID, Methods := s.Methods }

/-! ## Go maps -/

/-- Go `map[string]V`: a finite list of bindings, no key bound twice. -/
structure GoMap (V : Type) where
  entries : List (String × V)
  nodup : (entries.map Prod.fst).Nodup

/-- Bindings of a list whose key differs from `k`. -/
def dropKey {V : Type} (k : String) (l : List (String × V)) : List (String × V) :=
  l.filter (fun e => e.1 != k)

/-- The map literal `make(map[string]V, 0)`. -/
def GoMap.empty {V : Type} : GoMap V :=
  ⟨[], List.nodup_nil⟩

/-- The index expression `m[k]` on a map of pointers: the pointer bound to
`k`, and `nil` when `k` is not bound. -/
def GoMap.get {W : Type} (m : GoMap (Option W)) (k : String) : Option W :=
  (m.entries.lookup k).getD none

/-- The assignment `m[k] = v`. -/
def GoMap.set {V : Type} (m : GoMap V) (k : String) (v : V) : GoMap V :=
  ⟨(k, v) :: dropKey k m.entries, by
    refine List.nodup_cons.2 ⟨?_, m.nodup.sublist ((List.filter_sublist m.entries).map Prod.fst)⟩
    intro h
    rcases List.mem_map.1 h with ⟨e, he, hk⟩
    have hne := (List.mem_filter.1 he).2
    simp [hk] at hne⟩

/-- The builtin `delete(m, k)`. -/
def GoMap.delete {V : Type} (m : GoMap V) (k : String) : GoMap V :=
  ⟨dropKey k m.entries, m.nodup.sublist ((List.filter_sublist m.entries).map Prod.fst)⟩

/-- One order in which a `range` loop may visit a collection: any
rearrangement of its elements. -/
structure RangeOrder (α : Type) where
  visit : List α → List α
  perm : ∀ l, (visit l).Perm l

/-- The order that visits the elements as they are stored. -/
def RangeOrder.stored (α : Type) : RangeOrder α :=
  ⟨fun l => l, fun l => List.Perm.refl l⟩

/-- The order that visits the elements from the last stored to the first. -/
def RangeOrder.backwards (α : Type) : RangeOrder α :=
  ⟨fun l => l.reverse, fun l => List.reverse_perm l⟩

/-! ## The registry -/

/-- The struct `Services`: the map `items` (the embedded mutex is left out). -/
structure Services where
  items : GoMap (Option Service)

/-- The initial value of `ManagedServices`: an empty map. -/
def ManagedServices : Services :=
  { items := GoMap.empty }

/-- The method `Services.Service`: the copy of the service bound to `id` and
`true`, or `nil` and `false`. -/
def Services.Service (s : Services) (id : String) : Option Alkasir.Service × Bool :=
  match s.items.get id with
  | some p => (some p.copy, true)
  | none => (none, false)

/-- The method `Services.add`: the registry after the call and the error
returned. -/
def Services.add (s : Services) (service : Alkasir.Service) : Services × Option String :=
  let id := service.ID
  match s.items.get id with
  | some _ => (s, some "must have unique id")
  | none => ({ items := s.items.set id (some service) }, none)

/-- The method `Services.remove`: the registry after the call and the error
returned. -/
def Services.remove (s : Services) (service : Alkasir.Service) : Services × Option String :=
  let id := service.ID
  match s.items.get id with
  | none => (s, some "service not registered, cannot be removed")
  | some _ => ({ items := s.items.delete id }, none)

/-- The method `Services.AllServices`: one `range` over `items`, appending a
copy of every non-nil service. -/
def Services.AllServices (s : Services) (o : RangeOrder (String × Option Alkasir.Service)) :
    List Alkasir.Service :=
  (o.visit s.items.entries).foldl
    (fun services e =>
      match e.2 with
      | some sv => services ++ [sv.copy]
      | none => services)
    []

/-- The method `Services.AllMethods`: a `range` over `items` and, for every
non-nil service, a `range` over `Methods.list`, appending every non-nil
method.  The inner collection is declared outside `misc.go`; its visit takes
an order too, one for each key of the map (the stored order if it is a
slice). -/
def Services.AllMethods (s : Services) (o : RangeOrder (String × Option Alkasir.Service))
    (oi : String → RangeOrder (Option Alkasir.Method)) : List Alkasir.Method :=
  (o.visit s.items.entries).foldl
    (fun methods e =>
      match e.2 with
      | some sv =>
        ((oi e.1).visit sv.Methods.list).foldl
          (fun methods m =>
            match m with
            | some m => methods ++ [m]
            | none => methods)
          methods
      | none => methods)
    []

/-- Go `unicode.IsSpace`: the Latin-1 white space characters and the code
points with the Unicode property White_Space. -/
def isSpace (c : Char) : Bool :=
  let n := c.toNat
  (0x09 ≤ n && n ≤ 0x0D) || n == 0x20 || n == 0x85 || n == 0xA0 || n == 0x1680 ||
    (0x2000 ≤ n && n ≤ 0x200A) || n == 0x2028 || n == 0x2029 || n == 0x202F ||
    n == 0x205F || n == 0x3000

/-- Go `strings.TrimSpace`: the string without its leading and trailing white
space (on a string of Unicode characters). -/
def TrimSpace (s : String) : String :=
  ⟨((s.data.dropWhile isSpace).reverse.dropWhile isSpace).reverse⟩

/-- The method `Services.Method`: `nil` on a blank key; otherwise a scan of
`AllMethods` in which every method with the wanted ID overwrites the result
with a copy of itself. -/
def Services.Method (s : Services) (o : RangeOrder (String × Option Alkasir.Service))
    (oi : String → RangeOrder (Option Alkasir.Method)) (id : String) : Option Alkasir.Method :=
  if TrimSpace id = "" then none
  else
    (s.AllMethods o oi).foldl
      (fun method m => if m.ID = id then some { ID := m.ID, rest := m.rest } else method)
      none

/-- A call issued by `stopAll` on a registered service. -/
inductive Call where
  | Stop (s : Service)
  | wait (s : Service)
deriving DecidableEq, Repr

/-- The method `Services.stopAll`, as the trace of the `Stop` and `wait` calls
it issues and the error it returns: a first `range` over `items` calls `Stop`
on every non-nil service, a second one calls `wait`. -/
def Services.stopAll (s : Services) (o₁ o₂ : RangeOrder (String × Option Alkasir.Service)) :
    List Call × Option String :=
  let t₁ := (o₁.visit s.items.entries).foldl
    (fun t e =>
      match e.2 with
      | some sv => t ++ [Call.Stop sv]
      | none => t)
    []
  let t₂ := (o₂.visit s.items.entries).foldl
    (fun t e =>
      match e.2 with
      | some sv => t ++ [Call.wait sv]
      | none => t)
    t₁
  (t₂, none)

/-! ## Sequences of calls -/

/-- A mutating call on the registry. -/
inductive Op where
  | add (s : Service)
  | remove (s : Service)
deriving DecidableEq, Repr

/-- The registry after one mutating call, whether it succeeds or fails. -/
def Services.step (r : Services) : Op → Services
  | Op.add s => (r.add s).1
  | Op.remove s => (r.remove s).1

/-- The registry after a sequence of mutating calls. -/
def Services.run (r : Services) (ops : List Op) : Services :=
  ops.foldl Services.step r

/-- The registry after adding the services of a list one after the other, and
the errors the calls returned, in order. -/
def Services.addAll (r : Services) : List Alkasir.Service → Services × List (Option String)
  | [] => (r, [])
  | s :: ss => (((r.add s).1.addAll ss).1, (r.add s).2 :: ((r.add s).1.addAll ss).2)

/-! ## What a registry holds -/

/-- The services registered in a registry: the non-nil pointers of its map. -/
def Services.registered (r : Services) : List Alkasir.Service :=
  r.items.entries.filterMap Prod.snd

/-- The non-nil methods of all registered services, service after service. -/
def Services.registeredMethods (r : Services) : List Alkasir.Method :=
  r.registered.flatMap (fun sv => sv.Methods.list.filterMap id)

/-- The methods one visit of an entry appends in `AllMethods`. -/
def visitMethods (oi : String → RangeOrder (Option Method)) (e : String × Option Service) :
    List Method :=
  match e.2 with
  | some sv => ((oi e.1).visit sv.Methods.list).filterMap id
  | none => []

/-- Every non-nil entry of the map is bound to the key that is its own ID. -/
def Services.KeyedByID (r : Services) : Prop :=
  ∀ e ∈ r.items.entries, ∀ sv, e.2 = some sv → sv.ID = e.1

/-! ## The registry with pointers

The definitions above work on the values of the structs.  The ones below keep
the pointers: the structs live in a memory, the map binds IDs to addresses,
`copy` makes a new struct, and the `Stop` and `wait` calls issued are logged
in the state.  They are for the properties that speak of what a call leaves
untouched. -/

/-- The memory in which the `Service` structs live: the struct at every
address, and the next address to hand out. -/
structure Heap where
  cell : Nat → Service
  next : Nat

/-- A new struct holding `v`, and its address. -/
def Heap.new (h : Heap) (v : Service) : Nat × Heap :=
  (h.next, { cell := fun b => if b = h.next then v else h.cell b, next := h.next + 1 })

/-- The assignment `*a = v`. -/
def Heap.store (h : Heap) (a : Nat) (v : Service) : Heap :=
  { cell := fun b => if b = a then v else h.cell b, next := h.next }

/-- Modelled from the spec: `Service.copy` is defined outside `misc.go`.  The
spec describes it as a copy of the top-level struct that is never the internal
pointer: a new struct with the fields of the one pointed to. -/
def Heap.copy (h : Heap) (a : Nat) : Nat × Heap :=
  h.new (h.cell a).copy

/-- A `Stop` or `wait` call, on the service at an address. -/
inductive Signal where
  | Stop (a : Nat)
  | wait (a : Nat)
deriving DecidableEq, Repr

/-- Modelled from the spec: `Service.Stop` and `Service.wait` are defined
outside `misc.go`.  The spec places their effect in the service they are
called on: each is given by what it does to that struct. -/
structure Lifecycle where
  Stop : Service → Service
  wait : Service → Service

/-- The state a call runs in: the memory, the map `items` of the registry with
addresses for pointers, and the `Stop` and `wait` calls issued so far. -/
structure World where
  heap : Heap
  items : GoMap (Option Nat)
  calls : List Signal

/-- The state at start: nothing allocated, the map of `ManagedServices`
empty, no call issued. -/
def World.init : World :=
  { heap := { cell := fun _ => { ID := "", Methods := { list := [] } }, next := 0 },
    items := GoMap.empty, calls := [] }

/-- Every pointer in the map is the address of an allocated struct. -/
def World.WF (w : World) : Prop :=
  ∀ e ∈ w.items.entries, ∀ a ∈ e.2, a < w.heap.next

/-- The registry of values a state stands for: every pointer of the map
replaced by the struct it points to. -/
def World.view (w : World) : Services :=
  { items := ⟨w.items.entries.map (fun e => (e.1, e.2.map w.heap.cell)), by
      simpa [List.map_map, Function.comp_def] using w.items.nodup⟩ }

/-- The order on the bindings of values that visits them as `o` visits the
bindings of pointers of `w`. -/
def World.viewOrder (w : World) (o : RangeOrder (String × Option Nat)) :
    RangeOrder (String × Option Alkasir.Service) :=
  ⟨fun l =>
      if l = w.view.items.entries then
        (o.visit w.items.entries).map (fun e => (e.1, e.2.map w.heap.cell))
      else l, by
    intro l
    by_cases hl : l = w.view.items.entries
    · simp only [if_pos hl]
      rw [hl]
      exact (o.perm _).map _
    · simp only [if_neg hl]
      exact List.Perm.refl l⟩

/-- The assignment `*p = v` by a caller that holds the pointer `p`. -/
def World.poke (w : World) (p : Nat) (v : Service) : World :=
  { w with heap := w.heap.store p v }

/-- The method `Services.Service` with pointers: the address of a copy of the
service bound to `id` and `true`, or `nil` and `false`. -/
def World.Service (w : World) (id : String) : (Option Nat × Bool) × World :=
  match w.items.get id with
  | some a => ((some (w.heap.copy a).1, true), { w with heap := (w.heap.copy a).2 })
  | none => ((none, false), w)

/-- The method `Services.AllServices` with pointers: the addresses of the
copies, in the order of the visit. -/
def World.AllServices (w : World) (o : RangeOrder (String × Option Nat)) : List Nat × World :=
  (o.visit w.items.entries).foldl
    (fun acc e =>
      match e.2 with
      | some a => (acc.1 ++ [(acc.2.heap.copy a).1], { acc.2 with heap := (acc.2.heap.copy a).2 })
      | none => acc)
    ([], w)

/-- The method `Services.add` with pointers: `service` is the address of the
struct to register. -/
def World.add (w : World) (service : Nat) : Option String × World :=
  let id := (w.heap.cell service).ID
  match w.items.get id with
  | some _ => (some "must have unique id", w)
  | none => (none, { w with items := w.items.set id (some service) })

/-- The method `Services.remove` with pointers. -/
def World.remove (w : World) (service : Nat) : Option String × World :=
  let id := (w.heap.cell service).ID
  match w.items.get id with
  | none => (some "service not registered, cannot be removed", w)
  | some _ => (none, { w with items := w.items.delete id })

/-- The method `Services.AllMethods` with pointers: the slice of `*Method` it
returns. -/
def World.AllMethods (w : World) (o : RangeOrder (String × Option Nat))
    (oi : String → RangeOrder (Option Alkasir.Method)) : List (Option Alkasir.Method) × World :=
  (o.visit w.items.entries).foldl
    (fun acc e =>
      match e.2 with
      | some a =>
        (((oi e.1).visit (acc.2.heap.cell a).Methods.list).foldl
          (fun methods m =>
            match m with
            | some m => methods ++ [some m]
            | none => methods)
          acc.1, acc.2)
      | none => acc)
    ([], w)

/-- The scan of `Services.Method` over a slice of pointers: reading `m.ID`
through a nil pointer is a run-time error. -/
def scanMethods (id : String) :
    List (Option Method) → Option Method → Except String (Option Method)
  | [], method => Except.ok method
  | none :: _, _ => Except.error "nil pointer dereference"
  | some m :: l, method =>
    scanMethods id l (if m.ID = id then some { ID := m.ID, rest := m.rest } else method)

/-- The method `Services.Method` with pointers. -/
def World.Method (w : World) (o : RangeOrder (String × Option Nat))
    (oi : String → RangeOrder (Option Alkasir.Method)) (id : String) :
    Except String (Option Alkasir.Method) × World :=
  if TrimSpace id = "" then (Except.ok none, w)
  else (scanMethods id (w.AllMethods o oi).1 none, (w.AllMethods o oi).2)

/-- The method `Services.stopAll` with pointers: every `Stop` and `wait` call
is logged and acts on the struct it is called on. -/
def World.stopAll (w : World) (lc : Lifecycle) (o₁ o₂ : RangeOrder (String × Option Nat)) :
    Option String × World :=
  let w₁ := (o₁.visit w.items.entries).foldl
    (fun w e =>
      match e.2 with
      | some a =>
        { w with heap := w.heap.store a (lc.Stop (w.heap.cell a)),
                 calls := w.calls ++ [Signal.Stop a] }
      | none => w)
    w
  let w₂ := (o₂.visit w₁.items.entries).foldl
    (fun w e =>
      match e.2 with
      | some a =>
        { w with heap := w.heap.store a (lc.wait (w.heap.cell a)),
                 calls := w.calls ++ [Signal.wait a] }
      | none => w)
    w₁
  (none, w₂)

/-- A caller makes a new service struct and registers it. -/
def World.register (w : World) (v : Alkasir.Service) : World :=
  ({ w with heap := (w.heap.new v).2 } : World).add (w.heap.new v).1 |>.2

/-! ## Lemmas on maps -/

theorem Service.copy_eq (s : Service) : s.copy = s := rfl

theorem lookup_dropKey_self {V : Type} (k : String) (l : List (String × V)) :
    (dropKey k l).lookup k = none := by
  induction l with
  | nil => rfl
  | cons e l ih =>
    obtain ⟨a, v⟩ := e
    by_cases h : a = k
    · simpa [dropKey, h] using ih
    · have hk : (k == a) = false := by simpa using fun h' => h h'.symm
      simpa [dropKey, h, List.lookup_cons, hk] using ih

theorem lookup_dropKey_ne {V : Type} (k j : String) (h : j ≠ k) (l : List (String × V)) :
    (dropKey k l).lookup j = l.lookup j := by
  induction l with
  | nil => rfl
  | cons e l ih =>
    obtain ⟨a, v⟩ := e
    by_cases ha : a = k
    · subst ha
      have hj : (j == a) = false := by simpa using h
      simpa [dropKey, List.lookup_cons, hj] using ih
    · by_cases hja : j = a
      · simp [dropKey, ha, hja]
      · have hj : (j == a) = false := by simpa using hja
        simpa [dropKey, ha, List.lookup_cons, hj] using ih

theorem GoMap.get_set_self {W : Type} (m : GoMap (Option W)) (k : String) (v : Option W) :
    (m.set k v).get k = v := by
  simp [GoMap.get, GoMap.set]

theorem GoMap.get_set_ne {W : Type} (m : GoMap (Option W)) (k j : String) (v : Option W)
    (h : j ≠ k) : (m.set k v).get j = m.get j := by
  have hj : (j == k) = false := by simpa using h
  simp [GoMap.get, GoMap.set, List.lookup_cons, hj, lookup_dropKey_ne k j h]

theorem GoMap.get_delete_self {W : Type} (m : GoMap (Option W)) (k : String) :
    (m.delete k).get k = none := by
  simp [GoMap.get, GoMap.delete, lookup_dropKey_self]

theorem GoMap.get_delete_ne {W : Type} (m : GoMap (Option W)) (k j : String) (h : j ≠ k) :
    (m.delete k).get j = m.get j := by
  simp [GoMap.get, GoMap.delete, lookup_dropKey_ne k j h]

theorem dropKey_of_not_mem {V : Type} (k : String) (l : List (String × V))
    (h : k ∉ l.map Prod.fst) : dropKey k l = l := by
  refine List.filter_eq_self.2 fun e he => ?_
  have hne : e.1 ≠ k := fun hk => h (hk ▸ List.mem_map_of_mem Prod.fst he)
  simpa using hne

theorem filterMap_dropKey {W : Type} (k : String) (l : List (String × Option W))
    (hn : (l.map Prod.fst).Nodup) (h : (l.lookup k).getD none = none) :
    (dropKey k l).filterMap Prod.snd = l.filterMap Prod.snd := by
  induction l with
  | nil => rfl
  | cons e l ih =>
    obtain ⟨a, v⟩ := e
    have hn' := List.nodup_cons.1 hn
    by_cases ha : a = k
    · subst ha
      have hv : v = none := by simpa using h
      subst hv
      have hd : dropKey a l = l := dropKey_of_not_mem a l hn'.1
      have hc : dropKey a ((a, (none : Option W)) :: l) = dropKey a l := by simp [dropKey]
      rw [hc, hd]
      rfl
    · have hk : (k == a) = false := by simpa using fun h' => ha h'.symm
      have h' : (l.lookup k).getD none = none := by simpa [List.lookup_cons, hk] using h
      have hc : dropKey k ((a, v) :: l) = (a, v) :: dropKey k l := by simp [dropKey, ha]
      rw [hc, List.filterMap_cons, List.filterMap_cons, ih hn'.2 h']

/-! ## Lemmas on the loops -/

theorem foldl_services (l : List (String × Option Service)) (acc : List Service) :
    l.foldl
      (fun services e =>
        match e.2 with
        | some sv => services ++ [sv.copy]
        | none => services)
      acc = acc ++ l.filterMap Prod.snd := by
  induction l generalizing acc with
  | nil => simp
  | cons e l ih =>
    obtain ⟨a, v⟩ := e
    cases v <;> simp only [List.foldl_cons] <;> rw [ih] <;> simp [Service.copy_eq]

theorem allServices_eq (r : Services) (o : RangeOrder (String × Option Service)) :
    r.AllServices o = (o.visit r.items.entries).filterMap Prod.snd := by
  simp [Services.AllServices, foldl_services]

theorem allServices_perm (r : Services) (o : RangeOrder (String × Option Service)) :
    (r.AllServices o).Perm r.registered := by
  rw [allServices_eq]
  exact (o.perm _).filterMap _

theorem foldl_methods_inner (l : List (Option Method)) (acc : List Method) :
    l.foldl
      (fun methods m =>
        match m with
        | some m => methods ++ [m]
        | none => methods)
      acc = acc ++ l.filterMap id := by
  induction l generalizing acc with
  | nil => simp
  | cons m l ih => cases m <;> simp [ih]

theorem foldl_methods (oi : String → RangeOrder (Option Method)) (l : List (String × Option Service))
    (acc : List Method) :
    l.foldl
      (fun methods e =>
        match e.2 with
        | some sv =>
          ((oi e.1).visit sv.Methods.list).foldl
            (fun methods m =>
              match m with
              | some m => methods ++ [m]
              | none => methods)
            methods
        | none => methods)
      acc = acc ++ l.flatMap (visitMethods oi) := by
  induction l generalizing acc with
  | nil => simp
  | cons e l ih =>
    obtain ⟨a, v⟩ := e
    cases v <;> simp only [List.foldl_cons] <;> rw [ih] <;>
      simp [visitMethods, foldl_methods_inner]

theorem allMethods_eq (r : Services) (o : RangeOrder (String × Option Service))
    (oi : String → RangeOrder (Option Method)) :
    r.AllMethods o oi = (o.visit r.items.entries).flatMap (visitMethods oi) := by
  simp [Services.AllMethods, foldl_methods]

theorem flatMap_filterMap_snd (l : List (String × Option Service)) :
    l.flatMap (visitMethods fun _ => RangeOrder.stored _)
      = (l.filterMap Prod.snd).flatMap (fun sv => sv.Methods.list.filterMap id) := by
  induction l with
  | nil => rfl
  | cons e l ih =>
    obtain ⟨a, v⟩ := e
    cases v <;> simp only [List.flatMap_cons, List.filterMap_cons] <;> rw [ih] <;>
      simp [visitMethods, RangeOrder.stored]

theorem allMethods_perm (r : Services) (o : RangeOrder (String × Option Service))
    (oi : String → RangeOrder (Option Method)) :
    (r.AllMethods o oi).Perm r.registeredMethods := by
  rw [allMethods_eq, Services.registeredMethods, Services.registered,
    ← flatMap_filterMap_snd]
  refine ((o.perm _).flatMap_right _).trans (List.Perm.flatMap_left _ fun e _ => ?_)
  obtain ⟨a, v⟩ := e
  cases v with
  | none => exact List.Perm.refl _
  | some sv => exact ((oi a).perm _).filterMap _

theorem length_filterMap_id {α : Type} (l : List (Option α)) :
    (l.filterMap id).length = l.countP Option.isSome := by
  induction l with
  | nil => rfl
  | cons m l ih => cases m <;> simp [ih]

theorem coe_flatMap {α β : Type} (l : List α) (f : α → List β) :
    ((l.flatMap f : List β) : Multiset β) = (l.map fun a => ((f a : List β) : Multiset β)).sum := by
  induction l with
  | nil => rfl
  | cons a l ih => simp [← ih]

theorem foldl_calls (f : Service → Call) (l : List (String × Option Service))
    (acc : List Call) :
    l.foldl
      (fun t e =>
        match e.2 with
        | some sv => t ++ [f sv]
        | none => t)
      acc = acc ++ (l.filterMap Prod.snd).map f := by
  induction l generalizing acc with
  | nil => simp
  | cons e l ih =>
    obtain ⟨a, v⟩ := e
    cases v <;> simp only [List.foldl_cons] <;> rw [ih] <;> simp

theorem foldl_last_match (id : String) (l : List Method) :
    l.foldl
      (fun method m => if m.ID = id then some { ID := m.ID, rest := m.rest } else method)
      none = (l.filter fun m => m.ID = id).getLast? := by
  induction l using List.reverseRecOn with
  | nil => rfl
  | append_singleton l m ih =>
    rw [List.foldl_append, ih, List.filter_append]
    obtain ⟨mi, mr⟩ := m
    by_cases hm : mi = id
    · simp [hm, List.filter_cons]
    · simp [hm, List.filter_cons]

theorem stopAll_trace (r : Services) (o₁ o₂ : RangeOrder (String × Option Service)) :
    (r.stopAll o₁ o₂).1
      = ((o₁.visit r.items.entries).filterMap Prod.snd).map Call.Stop
        ++ ((o₂.visit r.items.entries).filterMap Prod.snd).map Call.wait := by
  simp [Services.stopAll, foldl_calls]

theorem length_visit_registered (r : Services) (o : RangeOrder (String × Option Service)) :
    ((o.visit r.items.entries).filterMap Prod.snd).length = r.registered.length :=
  ((o.perm _).filterMap _).length_eq

/-! ## add and remove -/

theorem add_of_none (r : Services) (s : Service) (h : r.items.get s.ID = none) :
    r.add s = ({ items := r.items.set s.ID (some s) }, none) := by
  simp [Services.add, h]

theorem add_of_some (r : Services) (s old : Service) (h : r.items.get s.ID = some old) :
    r.add s = (r, some "must have unique id") := by
  simp [Services.add, h]

theorem remove_of_none (r : Services) (s : Service) (h : r.items.get s.ID = none) :
    r.remove s = (r, some "service not registered, cannot be removed") := by
  simp [Services.remove, h]

theorem remove_of_some (r : Services) (s old : Service) (h : r.items.get s.ID = some old) :
    r.remove s = ({ items := r.items.delete s.ID }, none) := by
  simp [Services.remove, h]

/-- C1: when the registry holds a non-nil entry `old` under the ID of `s`,
`add s` returns the error "must have unique id" and the registry after the
call is the registry before it; the entry under that ID is still `old`. -/
theorem add_duplicate_rejected (r : Services) (s old : Service)
    (h : r.items.get s.ID = some old) :
    (r.add s).2 = some "must have unique id" ∧ (r.add s).1 = r ∧
      (r.add s).1.items.get s.ID = some old ∧
      (r.add s).1.items.entries.map Prod.fst = r.items.entries.map Prod.fst := by
  simp [Services.add, h]

theorem add_duplicate_rejected_witness :
    (ManagedServices.add ⟨"a", ⟨[some ⟨"m", 0⟩]⟩⟩).1.items.get "a" = some ⟨"a", ⟨[some ⟨"m", 0⟩]⟩⟩ ∧
    (((ManagedServices.add ⟨"a", ⟨[some ⟨"m", 0⟩]⟩⟩).1.add ⟨"a", ⟨[]⟩⟩).2
        = some "must have unique id" ∧
      ((ManagedServices.add ⟨"a", ⟨[some ⟨"m", 0⟩]⟩⟩).1.add ⟨"a", ⟨[]⟩⟩).1
        = (ManagedServices.add ⟨"a", ⟨[some ⟨"m", 0⟩]⟩⟩).1 ∧
      ((ManagedServices.add ⟨"a", ⟨[some ⟨"m", 0⟩]⟩⟩).1.add ⟨"a", ⟨[]⟩⟩).1.items.get "a"
        = some ⟨"a", ⟨[some ⟨"m", 0⟩]⟩⟩ ∧
      ((ManagedServices.add ⟨"a", ⟨[some ⟨"m", 0⟩]⟩⟩).1.add ⟨"a", ⟨[]⟩⟩).1.items.entries.map Prod.fst
        = (ManagedServices.add ⟨"a", ⟨[some ⟨"m", 0⟩]⟩⟩).1.items.entries.map Prod.fst) :=
  ⟨by decide,
   add_duplicate_rejected (ManagedServices.add ⟨"a", ⟨[some ⟨"m", 0⟩]⟩⟩).1 ⟨"a", ⟨[]⟩⟩
     ⟨"a", ⟨[some ⟨"m", 0⟩]⟩⟩ (by decide)⟩

/-- C2: when the registry holds no entry under the ID of `s` (the index
expression gives nil), whatever that ID is, `add s` returns no error and a
following `Service s.ID` returns found = true with a service that has the ID
and the method collection of `s`. -/
theorem add_then_lookup (r : Services) (s : Service) (h : r.items.get s.ID = none) :
    (r.add s).2 = none ∧
      ∃ c : Service, (r.add s).1.Service s.ID = (some c, true) ∧
        c.ID = s.ID ∧ c.Methods = s.Methods := by
  refine ⟨by simp [Services.add, h], s, ?_, rfl, rfl⟩
  simp [Services.add, h, Services.Service, GoMap.get_set_self, Service.copy_eq]

theorem add_then_lookup_witness :
    ManagedServices.items.get "  " = none ∧
    ((ManagedServices.add ⟨"  ", ⟨[some ⟨"m", 0⟩]⟩⟩).2 = none ∧
      ∃ c : Service, (ManagedServices.add ⟨"  ", ⟨[some ⟨"m", 0⟩]⟩⟩).1.Service "  "
          = (some c, true) ∧
        c.ID = "  " ∧ c.Methods = ⟨[some ⟨"m", 0⟩]⟩) :=
  ⟨by decide, add_then_lookup ManagedServices ⟨"  ", ⟨[some ⟨"m", 0⟩]⟩⟩ (by decide)⟩

/-- C3: when the registry holds a non-nil entry under the ID of `s`,
`remove s` returns no error and a following `Service s.ID` returns nil and
found = false. -/
theorem remove_then_lookup (r : Services) (s : Service)
    (h : (r.Service s.ID).2 = true) :
    (r.remove s).2 = none ∧ (r.remove s).1.Service s.ID = (none, false) := by
  cases hg : r.items.get s.ID with
  | none => simp [Services.Service, hg] at h
  | some old =>
    simp [Services.remove, hg, Services.Service, GoMap.get_delete_self]

theorem remove_then_lookup_witness :
    ((ManagedServices.add ⟨"a", ⟨[]⟩⟩).1.Service "a").2 = true ∧
    (((ManagedServices.add ⟨"a", ⟨[]⟩⟩).1.remove ⟨"a", ⟨[none]⟩⟩).2 = none ∧
      ((ManagedServices.add ⟨"a", ⟨[]⟩⟩).1.remove ⟨"a", ⟨[none]⟩⟩).1.Service "a"
        = (none, false)) :=
  ⟨by decide, remove_then_lookup (ManagedServices.add ⟨"a", ⟨[]⟩⟩).1 ⟨"a", ⟨[none]⟩⟩ (by decide)⟩

/-- C4: `remove s` returns an error exactly when the registry holds no entry
under the ID of `s` (`Service s.ID` reports found = false); the error is then
"service not registered, cannot be removed" and the registry after the call is
the registry before it.  The empty registry is such a registry for every
`s`. -/
theorem remove_unregistered (r : Services) (s : Service) :
    ((r.remove s).2 ≠ none ↔ (r.Service s.ID).2 = false) ∧
      ((r.Service s.ID).2 = false →
        (r.remove s).2 = some "service not registered, cannot be removed" ∧
          (r.remove s).1 = r) ∧
      (ManagedServices.Service s.ID).2 = false := by
  refine ⟨?_, ?_, rfl⟩
  · cases hg : r.items.get s.ID <;> simp [Services.remove, Services.Service, hg]
  · cases hg : r.items.get s.ID <;> simp [Services.remove, Services.Service, hg]

theorem remove_unregistered_witness :
    ((ManagedServices.add ⟨"a", ⟨[]⟩⟩).1.Service "b").2 = false ∧
    (((ManagedServices.add ⟨"a", ⟨[]⟩⟩).1.remove ⟨"b", ⟨[]⟩⟩).2
        = some "service not registered, cannot be removed" ∧
      ((ManagedServices.add ⟨"a", ⟨[]⟩⟩).1.remove ⟨"b", ⟨[]⟩⟩).1
        = (ManagedServices.add ⟨"a", ⟨[]⟩⟩).1) :=
  ⟨by decide,
   (remove_unregistered (ManagedServices.add ⟨"a", ⟨[]⟩⟩).1 ⟨"b", ⟨[]⟩⟩).2.1 (by decide)⟩

/-! ## One service per ID -/

theorem keyedByID_empty : ManagedServices.KeyedByID := by
  intro e he
  cases he

theorem keyedByID_add (r : Services) (s : Service) (h : r.KeyedByID) :
    (r.add s).1.KeyedByID := by
  cases hg : r.items.get s.ID with
  | some old =>
    rw [add_of_some r s old hg]
    exact h
  | none =>
    rw [add_of_none r s hg]
    intro e he sv hsv
    rcases List.mem_cons.1 he with rfl | he
    · cases hsv
      rfl
    · exact h e (List.mem_filter.1 he).1 sv hsv

theorem keyedByID_remove (r : Services) (s : Service) (h : r.KeyedByID) :
    (r.remove s).1.KeyedByID := by
  cases hg : r.items.get s.ID with
  | none =>
    rw [remove_of_none r s hg]
    exact h
  | some old =>
    rw [remove_of_some r s old hg]
    intro e he sv hsv
    exact h e (List.mem_filter.1 he).1 sv hsv

theorem keyedByID_run (ops : List Op) (r : Services) (h : r.KeyedByID) :
    (r.run ops).KeyedByID := by
  induction ops generalizing r with
  | nil => exact h
  | cons op ops ih =>
    cases op with
    | add s => exact ih _ (keyedByID_add r s h)
    | remove s => exact ih _ (keyedByID_remove r s h)

theorem nodup_registered_ids (l : List (String × Option Service))
    (hn : (l.map Prod.fst).Nodup) (hk : ∀ e ∈ l, ∀ sv, e.2 = some sv → sv.ID = e.1) :
    ((l.filterMap Prod.snd).map Service.ID).Nodup := by
  induction l with
  | nil => exact List.nodup_nil
  | cons e l ih =>
    obtain ⟨a, v⟩ := e
    have hn' := List.nodup_cons.1 hn
    have ih' := ih hn'.2 fun e he => hk e (List.mem_cons_of_mem _ he)
    cases v with
    | none => simpa using ih'
    | some sv =>
      have ha : sv.ID = a := hk (a, some sv) (List.mem_cons_self _ _) sv rfl
      have hc : ((a, some sv) :: l).filterMap Prod.snd = sv :: l.filterMap Prod.snd := rfl
      rw [hc, List.map_cons]
      refine List.nodup_cons.2 ⟨fun hmem => hn'.1 ?_, ih'⟩
      rcases List.mem_map.1 hmem with ⟨x, hx, hxid⟩
      rcases List.mem_filterMap.1 hx with ⟨e, he, hex⟩
      have hkey : x.ID = e.1 := hk e (List.mem_cons_of_mem _ he) x hex
      have hmk : e.1 ∈ l.map Prod.fst := List.mem_map_of_mem Prod.fst he
      rw [← hkey, hxid, ha] at hmk
      exact hmk

/-- C5: in every registry reached from the empty one by a finite sequence of
`add` and `remove` calls, failing ones included, the list returned by
`AllServices` holds no two services with the same ID, whatever the order in
which the map is visited. -/
theorem allServices_ids_nodup (ops : List Op) (o : RangeOrder (String × Option Service)) :
    (((ManagedServices.run ops).AllServices o).map Service.ID).Nodup := by
  have hp := (allServices_perm (ManagedServices.run ops) o).map Service.ID
  refine hp.nodup_iff.2 ?_
  exact nodup_registered_ids _ (ManagedServices.run ops).items.nodup
    (keyedByID_run ops ManagedServices keyedByID_empty)

/-! ## Enumeration -/

theorem registered_add (r : Services) (s : Service) (h : r.items.get s.ID = none) :
    (r.add s).1.registered = s :: r.registered := by
  rw [add_of_none r s h]
  have hc : ((s.ID, some s) :: dropKey s.ID r.items.entries).filterMap Prod.snd
      = s :: (dropKey s.ID r.items.entries).filterMap Prod.snd := rfl
  simp only [Services.registered, GoMap.set]
  rw [hc, filterMap_dropKey s.ID r.items.entries r.items.nodup h]

theorem addAll_fresh (ss : List Service) (r : Services) (hn : (ss.map Service.ID).Nodup)
    (hf : ∀ s ∈ ss, r.items.get s.ID = none) :
    (r.addAll ss).2 = List.replicate ss.length none ∧
      (r.addAll ss).1.registered = ss.reverse ++ r.registered := by
  induction ss generalizing r with
  | nil => exact ⟨rfl, rfl⟩
  | cons s ss ih =>
    have hn' := List.nodup_cons.1 hn
    have hs : r.items.get s.ID = none := hf s (List.mem_cons_self _ _)
    have hf' : ∀ x ∈ ss, (r.add s).1.items.get x.ID = none := by
      intro x hx
      have hne : x.ID ≠ s.ID := fun he => hn'.1 (he ▸ List.mem_map_of_mem Service.ID hx)
      have hx' := hf x (List.mem_cons_of_mem _ hx)
      simpa [Services.add, hs, GoMap.get_set_ne _ _ _ _ hne] using hx'
    obtain ⟨h1, h2⟩ := ih (r.add s).1 hn'.2 hf'
    refine ⟨?_, ?_⟩
    · have he : (r.add s).2 = none := by simp [Services.add, hs]
      simp [Services.addAll, h1, he, List.replicate_succ]
    · simp [Services.addAll, h2, registered_add r s hs]

/-- C6: starting from the empty registry, adding services with pairwise
distinct IDs succeeds at every call, and `AllServices` then returns as many
entries as services were added: a rearrangement of the added services, and so
its IDs are a rearrangement of the added IDs.  On the empty registry
`AllServices` returns the empty list. -/
theorem allServices_after_adds (ss : List Service) (o : RangeOrder (String × Option Service))
    (h : (ss.map Service.ID).Nodup) :
    (ManagedServices.addAll ss).2 = List.replicate ss.length none ∧
      ((ManagedServices.addAll ss).1.AllServices o).length = ss.length ∧
      ((ManagedServices.addAll ss).1.AllServices o).Perm ss ∧
      (((ManagedServices.addAll ss).1.AllServices o).map Service.ID).Perm (ss.map Service.ID) ∧
      ManagedServices.AllServices o = [] := by
  obtain ⟨h1, h2⟩ := addAll_fresh ss ManagedServices h (fun _ _ => rfl)
  have hp : ((ManagedServices.addAll ss).1.AllServices o).Perm ss := by
    refine (allServices_perm _ o).trans ?_
    rw [h2]
    simp [Services.registered, ManagedServices, GoMap.empty]
  refine ⟨h1, by simpa using hp.length_eq, hp, hp.map _, ?_⟩
  have he := (allServices_perm ManagedServices o).length_eq
  exact List.eq_nil_of_length_eq_zero he

theorem allServices_after_adds_witness :
    ([(⟨"a", ⟨[]⟩⟩ : Service), ⟨"b", ⟨[none]⟩⟩, ⟨"", ⟨[]⟩⟩].map Service.ID).Nodup ∧
    ((ManagedServices.addAll [⟨"a", ⟨[]⟩⟩, ⟨"b", ⟨[none]⟩⟩, ⟨"", ⟨[]⟩⟩]).2
        = List.replicate 3 none ∧
      ((ManagedServices.addAll [⟨"a", ⟨[]⟩⟩, ⟨"b", ⟨[none]⟩⟩, ⟨"", ⟨[]⟩⟩]).1.AllServices
        (RangeOrder.backwards _)).length = 3 ∧
      ((ManagedServices.addAll [⟨"a", ⟨[]⟩⟩, ⟨"b", ⟨[none]⟩⟩, ⟨"", ⟨[]⟩⟩]).1.AllServices
        (RangeOrder.backwards _)).Perm [⟨"a", ⟨[]⟩⟩, ⟨"b", ⟨[none]⟩⟩, ⟨"", ⟨[]⟩⟩] ∧
      (((ManagedServices.addAll [⟨"a", ⟨[]⟩⟩, ⟨"b", ⟨[none]⟩⟩, ⟨"", ⟨[]⟩⟩]).1.AllServices
        (RangeOrder.backwards _)).map Service.ID).Perm ["a", "b", ""] ∧
      ManagedServices.AllServices (RangeOrder.backwards _) = []) :=
  ⟨by decide,
   allServices_after_adds [⟨"a", ⟨[]⟩⟩, ⟨"b", ⟨[none]⟩⟩, ⟨"", ⟨[]⟩⟩] (RangeOrder.backwards _)
     (by decide)⟩

/-- C7: for every registry and every order of visit, `AllMethods` returns the
non-nil methods of the registered services: as a multiset it is the sum of
their method collections with the nil entries left out, and its length is the
number of non-nil methods over all registered services.  After adding "svc-a"
with methods m1, m2 and "svc-b" with method m3 to the empty registry the IDs
returned are m1, m2, m3 in some order, and after then removing "svc-a" they are
m3 alone. -/
theorem allMethods_flatten :
    (∀ (r : Services) (o : RangeOrder (String × Option Service))
        (oi : String → RangeOrder (Option Method)),
      ((r.AllMethods o oi : List Method) : Multiset Method)
          = (r.registered.map fun sv =>
              ((sv.Methods.list.filterMap id : List Method) : Multiset Method)).sum ∧
        (r.AllMethods o oi).length
          = (r.registered.map fun sv => sv.Methods.list.countP Option.isSome).sum) ∧
    (∀ (o : RangeOrder (String × Option Service)) (oi : String → RangeOrder (Option Method))
        (a b c : Nat),
      (((ManagedServices.run
          [Op.add ⟨"svc-a", ⟨[some ⟨"m1", a⟩, some ⟨"m2", b⟩]⟩⟩,
           Op.add ⟨"svc-b", ⟨[some ⟨"m3", c⟩]⟩⟩]).AllMethods o oi).map Method.ID).Perm
          ["m1", "m2", "m3"] ∧
        ((ManagedServices.run
          [Op.add ⟨"svc-a", ⟨[some ⟨"m1", a⟩, some ⟨"m2", b⟩]⟩⟩,
           Op.add ⟨"svc-b", ⟨[some ⟨"m3", c⟩]⟩⟩,
           Op.remove ⟨"svc-a", ⟨[some ⟨"m1", a⟩, some ⟨"m2", b⟩]⟩⟩]).AllMethods o oi).map
          Method.ID = ["m3"]) := by
  refine ⟨fun r o oi => ⟨?_, ?_⟩, fun o oi a b c => ⟨?_, ?_⟩⟩
  · rw [Multiset.coe_eq_coe.2 (allMethods_perm r o oi), Services.registeredMethods, coe_flatMap]
  · rw [(allMethods_perm r o oi).length_eq, Services.registeredMethods, List.length_flatMap]
    congr 1
    refine List.map_congr_left fun sv _ => ?_
    exact length_filterMap_id _
  · refine ((allMethods_perm _ o oi).map Method.ID).trans ?_
    have hr : (ManagedServices.run
        [Op.add ⟨"svc-a", ⟨[some ⟨"m1", a⟩, some ⟨"m2", b⟩]⟩⟩,
         Op.add ⟨"svc-b", ⟨[some ⟨"m3", c⟩]⟩⟩]).registeredMethods
        = [⟨"m3", c⟩, ⟨"m1", a⟩, ⟨"m2", b⟩] := rfl
    rw [hr]
    show ["m3", "m1", "m2"].Perm ["m1", "m2", "m3"]
    decide
  · have hp := (allMethods_perm (ManagedServices.run
        [Op.add ⟨"svc-a", ⟨[some ⟨"m1", a⟩, some ⟨"m2", b⟩]⟩⟩,
         Op.add ⟨"svc-b", ⟨[some ⟨"m3", c⟩]⟩⟩,
         Op.remove ⟨"svc-a", ⟨[some ⟨"m1", a⟩, some ⟨"m2", b⟩]⟩⟩]) o oi).map Method.ID
    have hr : (ManagedServices.run
        [Op.add ⟨"svc-a", ⟨[some ⟨"m1", a⟩, some ⟨"m2", b⟩]⟩⟩,
         Op.add ⟨"svc-b", ⟨[some ⟨"m3", c⟩]⟩⟩,
         Op.remove ⟨"svc-a", ⟨[some ⟨"m1", a⟩, some ⟨"m2", b⟩]⟩⟩]).registeredMethods
        = [⟨"m3", c⟩] := rfl
    rw [hr] at hp
    exact List.perm_singleton.1 hp

/-! ## Method lookup -/

/-- C8: for every registry, every order of visit and every id whose
white-space-trimmed form is the empty string, `Method id` returns nil; the
empty string and the string of three blanks are such ids. -/
theorem method_blank (r : Services) (o : RangeOrder (String × Option Service))
    (oi : String → RangeOrder (Option Method)) (id : String) (h : TrimSpace id = "") :
    r.Method o oi id = none ∧ r.Method o oi "" = none ∧ r.Method o oi "   " = none := by
  refine ⟨by simp [Services.Method, h], ?_, ?_⟩
  · have h0 : TrimSpace "" = "" := by decide
    simp [Services.Method, h0]
  · have h3 : TrimSpace "   " = "" := by decide
    simp [Services.Method, h3]

theorem method_blank_witness :
    TrimSpace "  " = "" ∧
    (⟨"  ", 7⟩ : Method) ∈
      (ManagedServices.add ⟨"a", ⟨[some ⟨"  ", 7⟩, some ⟨"   ", 8⟩, some ⟨"", 9⟩]⟩⟩).1.AllMethods
        (RangeOrder.stored _) (fun _ => RangeOrder.stored _) ∧
    ((ManagedServices.add ⟨"a", ⟨[some ⟨"  ", 7⟩, some ⟨"   ", 8⟩, some ⟨"", 9⟩]⟩⟩).1.Method
        (RangeOrder.stored _) (fun _ => RangeOrder.stored _) "  " = none ∧
      (ManagedServices.add ⟨"a", ⟨[some ⟨"  ", 7⟩, some ⟨"   ", 8⟩, some ⟨"", 9⟩]⟩⟩).1.Method
        (RangeOrder.stored _) (fun _ => RangeOrder.stored _) "" = none ∧
      (ManagedServices.add ⟨"a", ⟨[some ⟨"  ", 7⟩, some ⟨"   ", 8⟩, some ⟨"", 9⟩]⟩⟩).1.Method
        (RangeOrder.stored _) (fun _ => RangeOrder.stored _) "   " = none) :=
  ⟨by decide, by decide,
   method_blank (ManagedServices.add ⟨"a", ⟨[some ⟨"  ", 7⟩, some ⟨"   ", 8⟩, some ⟨"", 9⟩]⟩⟩).1
     (RangeOrder.stored _) (fun _ => RangeOrder.stored _) "  " (by decide)⟩

/-- C9: for every registry, every order of visit and every id that is not
blank, `Method id` returns the last method with that ID in the sequence
`AllMethods` produced: whenever that sequence is `pre ++ m :: post` with `m`
of ID `id` and no method of `post` of ID `id`, the result is `m`. -/
theorem method_last_wins (r : Services) (o : RangeOrder (String × Option Service))
    (oi : String → RangeOrder (Option Method)) (id : String) (h : TrimSpace id ≠ "") :
    r.Method o oi id = ((r.AllMethods o oi).filter fun m => m.ID = id).getLast? ∧
      ∀ (pre post : List Method) (m : Method), r.AllMethods o oi = pre ++ m :: post →
        m.ID = id → (∀ x ∈ post, x.ID ≠ id) → r.Method o oi id = some m := by
  have h1 : r.Method o oi id = ((r.AllMethods o oi).filter fun m => m.ID = id).getLast? := by
    simp only [Services.Method, h, if_false]
    exact foldl_last_match id _
  refine ⟨h1, fun pre post m hs hm hpost => ?_⟩
  have hf : (post.filter fun m => decide (m.ID = id)) = [] :=
    List.filter_eq_nil_iff.2 fun x hx => by simpa using hpost x hx
  rw [h1, hs, List.filter_append, List.filter_cons, hf]
  simp [hm]

theorem method_last_wins_witness :
    TrimSpace "m" ≠ "" ∧
    (ManagedServices.add ⟨"a", ⟨[some ⟨"m", 1⟩, some ⟨"k", 2⟩, some ⟨"m", 3⟩, none]⟩⟩).1.AllMethods
        (RangeOrder.stored _) (fun _ => RangeOrder.stored _) = [⟨"m", 1⟩, ⟨"k", 2⟩, ⟨"m", 3⟩] ∧
    (ManagedServices.add ⟨"a", ⟨[some ⟨"m", 1⟩, some ⟨"k", 2⟩, some ⟨"m", 3⟩, none]⟩⟩).1.Method
        (RangeOrder.stored _) (fun _ => RangeOrder.stored _) "m" = some ⟨"m", 3⟩ ∧
    (ManagedServices.add ⟨"a", ⟨[some ⟨"m", 1⟩, some ⟨"k", 2⟩, some ⟨"m", 3⟩, none]⟩⟩).1.Method
        (RangeOrder.stored _) (fun _ => RangeOrder.stored _) "m" ≠ some ⟨"m", 1⟩ :=
  have hw := (method_last_wins
    (ManagedServices.add ⟨"a", ⟨[some ⟨"m", 1⟩, some ⟨"k", 2⟩, some ⟨"m", 3⟩, none]⟩⟩).1
    (RangeOrder.stored _) (fun _ => RangeOrder.stored _) "m" (by decide)).2
      [⟨"m", 1⟩, ⟨"k", 2⟩] [] ⟨"m", 3⟩ (by decide) rfl (by decide)
  ⟨by decide, by decide, hw, by rw [hw]; decide⟩

/-! ## Shutdown -/

/-- C10: for every registry with K registered services and every two orders
of visit, the trace of `stopAll` is K `Stop` calls followed by K `wait` calls:
every `Stop` in the trace is at a position before that of every `wait`. -/
theorem stopAll_signal_before_wait (r : Services)
    (o₁ o₂ : RangeOrder (String × Option Service)) :
    (∃ stops waits : List Service,
      (r.stopAll o₁ o₂).1 = stops.map Call.Stop ++ waits.map Call.wait ∧
        stops.length = r.registered.length ∧ waits.length = r.registered.length) ∧
      ∀ (i j : Nat) (s t : Service), (r.stopAll o₁ o₂).1[i]? = some (Call.Stop s) →
        (r.stopAll o₁ o₂).1[j]? = some (Call.wait t) → i < j := by
  refine ⟨⟨_, _, stopAll_trace r o₁ o₂, length_visit_registered r o₁,
    length_visit_registered r o₂⟩, fun i j s t hi hj => ?_⟩
  rw [stopAll_trace] at hi hj
  generalize (o₁.visit r.items.entries).filterMap Prod.snd = A at hi hj
  generalize (o₂.visit r.items.entries).filterMap Prod.snd = B at hi hj
  have hiA : i < (A.map Call.Stop).length := by
    by_contra hc
    rw [List.getElem?_append_right (Nat.le_of_not_lt hc), List.getElem?_map] at hi
    cases hb : B[i - (A.map Call.Stop).length]? <;> simp [hb] at hi
  have hjA : (A.map Call.Stop).length ≤ j := by
    by_contra hc
    rw [List.getElem?_append_left (Nat.lt_of_not_le hc), List.getElem?_map] at hj
    cases ha : A[j]? <;> simp [ha] at hj
  exact Nat.lt_of_lt_of_le hiA hjA

theorem stopAll_signal_before_wait_witness :
    ((ManagedServices.addAll [⟨"a", ⟨[]⟩⟩, ⟨"b", ⟨[]⟩⟩]).1.stopAll
        (RangeOrder.stored _) (RangeOrder.backwards _)).1[1]? = some (Call.Stop ⟨"a", ⟨[]⟩⟩) ∧
    ((ManagedServices.addAll [⟨"a", ⟨[]⟩⟩, ⟨"b", ⟨[]⟩⟩]).1.stopAll
        (RangeOrder.stored _) (RangeOrder.backwards _)).1[2]? = some (Call.wait ⟨"a", ⟨[]⟩⟩) ∧
    1 < 2 :=
  ⟨by decide, by decide,
   (stopAll_signal_before_wait (ManagedServices.addAll [⟨"a", ⟨[]⟩⟩, ⟨"b", ⟨[]⟩⟩]).1
     (RangeOrder.stored _) (RangeOrder.backwards _)).2 1 2 ⟨"a", ⟨[]⟩⟩ ⟨"a", ⟨[]⟩⟩
     (by decide) (by decide)⟩

theorem trace_perm (r : Services) (o₁ o₂ : RangeOrder (String × Option Service)) :
    (r.stopAll o₁ o₂).1.Perm (r.registered.map Call.Stop ++ r.registered.map Call.wait) := by
  rw [stopAll_trace]
  exact (((o₁.perm _).filterMap _).map _).append (((o₂.perm _).filterMap _).map _)

theorem count_stop (l : List Service) (s : Service) :
    (l.map Call.Stop ++ l.map Call.wait).count (Call.Stop s) = l.count s := by
  have hz : (l.map Call.wait).count (Call.Stop s) = 0 :=
    List.count_eq_zero_of_not_mem fun hm => by
      rcases List.mem_map.1 hm with ⟨x, _, hx⟩
      cases hx
  rw [List.count_append, hz, Nat.add_zero]
  exact List.count_map_of_injective l Call.Stop (fun a b hab => by cases hab; rfl) s

theorem count_wait (l : List Service) (s : Service) :
    (l.map Call.Stop ++ l.map Call.wait).count (Call.wait s) = l.count s := by
  have hz : (l.map Call.Stop).count (Call.wait s) = 0 :=
    List.count_eq_zero_of_not_mem fun hm => by
      rcases List.mem_map.1 hm with ⟨x, _, hx⟩
      cases hx
  rw [List.count_append, hz, Nat.zero_add]
  exact List.count_map_of_injective l Call.wait (fun a b hab => by cases hab; rfl) s

theorem nodup_registered_run (ops : List Op) : (ManagedServices.run ops).registered.Nodup :=
  List.Nodup.of_map Service.ID
    (nodup_registered_ids _ (ManagedServices.run ops).items.nodup
      (keyedByID_run ops ManagedServices keyedByID_empty))

/-- C11: for every registry and every two orders of visit, the calls `stopAll`
issues are one `Stop` and one `wait` for every registered non-nil service and
nothing else, and the error returned is nil; on the empty registry no call is
issued.  In a registry reached from the empty one by `add` and `remove` calls
every registered service gets exactly one `Stop` and exactly one `wait`. -/
theorem stopAll_each_once :
    (∀ (r : Services) (o₁ o₂ : RangeOrder (String × Option Service)),
      (r.stopAll o₁ o₂).1.Perm (r.registered.map Call.Stop ++ r.registered.map Call.wait) ∧
        (∀ s : Service, (r.stopAll o₁ o₂).1.count (Call.Stop s) = r.registered.count s ∧
          (r.stopAll o₁ o₂).1.count (Call.wait s) = r.registered.count s) ∧
        (r.stopAll o₁ o₂).2 = none) ∧
    (∀ o₁ o₂ : RangeOrder (String × Option Service),
      ManagedServices.stopAll o₁ o₂ = ([], none)) ∧
    (∀ (ops : List Op) (o₁ o₂ : RangeOrder (String × Option Service)),
      ∀ s ∈ (ManagedServices.run ops).registered,
        ((ManagedServices.run ops).stopAll o₁ o₂).1.count (Call.Stop s) = 1 ∧
          ((ManagedServices.run ops).stopAll o₁ o₂).1.count (Call.wait s) = 1) := by
  have hcount : ∀ (r : Services) (o₁ o₂ : RangeOrder (String × Option Service)) (s : Service),
      (r.stopAll o₁ o₂).1.count (Call.Stop s) = r.registered.count s ∧
        (r.stopAll o₁ o₂).1.count (Call.wait s) = r.registered.count s := by
    intro r o₁ o₂ s
    rw [(trace_perm r o₁ o₂).count_eq, (trace_perm r o₁ o₂).count_eq]
    exact ⟨count_stop _ s, count_wait _ s⟩
  refine ⟨fun r o₁ o₂ => ⟨trace_perm r o₁ o₂, hcount r o₁ o₂, rfl⟩, fun o₁ o₂ => ?_,
    fun ops o₁ o₂ s hs => ?_⟩
  · have hp := (trace_perm ManagedServices o₁ o₂).length_eq
    have hnil : (ManagedServices.stopAll o₁ o₂).1 = [] := List.eq_nil_of_length_eq_zero hp
    exact Prod.ext hnil rfl
  · have h1 := List.count_eq_one_of_mem (nodup_registered_run ops) hs
    obtain ⟨ha, hb⟩ := hcount (ManagedServices.run ops) o₁ o₂ s
    exact ⟨ha.trans h1, hb.trans h1⟩

theorem stopAll_each_once_witness :
    (⟨"b", ⟨[]⟩⟩ : Service) ∈
      (ManagedServices.run [Op.add ⟨"a", ⟨[]⟩⟩, Op.add ⟨"b", ⟨[]⟩⟩, Op.add ⟨"b", ⟨[none]⟩⟩,
        Op.remove ⟨"a", ⟨[]⟩⟩]).registered ∧
    (((ManagedServices.run [Op.add ⟨"a", ⟨[]⟩⟩, Op.add ⟨"b", ⟨[]⟩⟩, Op.add ⟨"b", ⟨[none]⟩⟩,
        Op.remove ⟨"a", ⟨[]⟩⟩]).stopAll (RangeOrder.stored _) (RangeOrder.backwards _)).1.count
          (Call.Stop ⟨"b", ⟨[]⟩⟩) = 1 ∧
      ((ManagedServices.run [Op.add ⟨"a", ⟨[]⟩⟩, Op.add ⟨"b", ⟨[]⟩⟩, Op.add ⟨"b", ⟨[none]⟩⟩,
        Op.remove ⟨"a", ⟨[]⟩⟩]).stopAll (RangeOrder.stored _) (RangeOrder.backwards _)).1.count
          (Call.wait ⟨"b", ⟨[]⟩⟩) = 1) :=
  ⟨by decide,
   stopAll_each_once.2.2 [Op.add ⟨"a", ⟨[]⟩⟩, Op.add ⟨"b", ⟨[]⟩⟩, Op.add ⟨"b", ⟨[none]⟩⟩,
     Op.remove ⟨"a", ⟨[]⟩⟩] (RangeOrder.stored _) (RangeOrder.backwards _) ⟨"b", ⟨[]⟩⟩
     (by decide)⟩

/-! ## Lookup -/

theorem lookup_eq_some_iff {V : Type} (l : List (String × V))
    (hn : (l.map Prod.fst).Nodup) (k : String) (v : V) :
    l.lookup k = some v ↔ (k, v) ∈ l := by
  induction l with
  | nil => simp
  | cons e l ih =>
    obtain ⟨a, b⟩ := e
    have hn' := List.nodup_cons.1 hn
    by_cases hk : k = a
    · subst hk
      have hnot : (k, v) ∉ l := fun hm => hn'.1 (List.mem_map.2 ⟨(k, v), hm, rfl⟩)
      simp [hnot, eq_comm]
    · have hb : (k == a) = false := by simpa using hk
      simp [List.lookup_cons, hb, hk, ih hn'.2]

theorem GoMap.get_eq_some_iff {W : Type} (m : GoMap (Option W)) (k : String) (v : W) :
    m.get k = some v ↔ (k, some v) ∈ m.entries := by
  rw [← lookup_eq_some_iff m.entries m.nodup k (some v), GoMap.get]
  cases m.entries.lookup k <;> simp

theorem service_of_some (r : Services) (id : String) (sv : Service)
    (h : r.items.get id = some sv) : r.Service id = (some sv, true) := by
  simp [Services.Service, h, Service.copy_eq]

theorem service_of_none (r : Services) (id : String) (h : r.items.get id = none) :
    r.Service id = (none, false) := by
  simp [Services.Service, h]

theorem mem_registered_iff (r : Services) (sv : Service) :
    sv ∈ r.registered ↔ ∃ k, (k, some sv) ∈ r.items.entries := by
  simp [Services.registered, List.mem_filterMap]

theorem mem_registeredMethods_iff (r : Services) (m : Method) :
    m ∈ r.registeredMethods ↔ ∃ sv ∈ r.registered, some m ∈ sv.Methods.list := by
  simp [Services.registeredMethods, List.mem_flatMap, List.mem_filterMap]

theorem method_eq_last (r : Services) (o : RangeOrder (String × Option Service))
    (oi : String → RangeOrder (Option Method)) (id : String) (h : TrimSpace id ≠ "") :
    r.Method o oi id = ((r.AllMethods o oi).filter fun m => m.ID = id).getLast? := by
  simp only [Services.Method, h, if_false]
  exact foldl_last_match id _

/-- C13: for every registry and id, `Service id` returns found = true exactly
when a service is bound to `id` in the map; it then returns that service, and
otherwise nil and false.  `Method id` returns nil when no registered service
has a method with that ID.  On the empty registry both lookups return nil. -/
theorem lookup_total (r : Services) (o : RangeOrder (String × Option Service))
    (oi : String → RangeOrder (Option Method)) (id : String) :
    ((r.Service id).2 = true ↔ ∃ sv, (id, some sv) ∈ r.items.entries) ∧
      (r.Service id = (none, false) ∨
        ∃ sv, (id, some sv) ∈ r.items.entries ∧ r.Service id = (some sv, true)) ∧
      ((∀ m ∈ r.registeredMethods, m.ID ≠ id) → r.Method o oi id = none) ∧
      ManagedServices.Service id = (none, false) ∧
      ManagedServices.Method o oi id = none := by
  have hsplit : r.Service id = (none, false) ∨
      ∃ sv, (id, some sv) ∈ r.items.entries ∧ r.Service id = (some sv, true) := by
    cases hg : r.items.get id with
    | none => exact Or.inl (service_of_none r id hg)
    | some sv =>
      exact Or.inr ⟨sv, (GoMap.get_eq_some_iff _ _ _).1 hg, service_of_some r id sv hg⟩
  have habsent : ∀ (q : Services), (∀ m ∈ q.registeredMethods, m.ID ≠ id) →
      q.Method o oi id = none := by
    intro q hno
    by_cases hb : TrimSpace id = ""
    · simp [Services.Method, hb]
    · rw [method_eq_last q o oi id hb, List.getLast?_eq_none_iff, List.filter_eq_nil_iff]
      intro m hm
      have hm' : m ∈ q.registeredMethods := (allMethods_perm q o oi).mem_iff.1 hm
      simpa using hno m hm'
  refine ⟨?_, hsplit, habsent r, rfl, habsent ManagedServices ?_⟩
  · constructor
    · intro hf
      rcases hsplit with hn | ⟨sv, hmem, _⟩
      · rw [hn] at hf
        cases hf
      · exact ⟨sv, hmem⟩
    · rintro ⟨sv, hmem⟩
      rw [service_of_some r id sv ((GoMap.get_eq_some_iff _ _ _).2 hmem)]
  · intro m hm
    cases hm

theorem lookup_total_witness :
    (∀ m ∈ (ManagedServices.add ⟨"a", ⟨[some ⟨"m1", 0⟩, none]⟩⟩).1.registeredMethods,
      m.ID ≠ "m2") ∧
    (ManagedServices.add ⟨"a", ⟨[some ⟨"m1", 0⟩, none]⟩⟩).1.Method
      (RangeOrder.stored _) (fun _ => RangeOrder.stored _) "m2" = none :=
  ⟨by decide,
   (lookup_total (ManagedServices.add ⟨"a", ⟨[some ⟨"m1", 0⟩, none]⟩⟩).1
     (RangeOrder.stored _) (fun _ => RangeOrder.stored _) "m2").2.2.1 (by decide)⟩

/-- C17: in every registry reached from the empty one by `add` and `remove`
calls every non-nil entry is bound to the key that is its own ID, and so
whenever `Service id` reports found = true the service it returns has the ID
`id`. -/
theorem service_id_is_key (ops : List Op) (id : String)
    (h : ((ManagedServices.run ops).Service id).2 = true) :
    (ManagedServices.run ops).KeyedByID ∧
      ∃ c : Service, ((ManagedServices.run ops).Service id).1 = some c ∧ c.ID = id := by
  have hk := keyedByID_run ops ManagedServices keyedByID_empty
  refine ⟨hk, ?_⟩
  cases hg : (ManagedServices.run ops).items.get id with
  | none =>
    rw [service_of_none _ id hg] at h
    cases h
  | some sv =>
    rw [service_of_some _ id sv hg]
    exact ⟨sv, rfl, hk (id, some sv) ((GoMap.get_eq_some_iff _ _ _).1 hg) sv rfl⟩

theorem service_id_is_key_witness :
    ((ManagedServices.run [Op.add ⟨"a", ⟨[]⟩⟩, Op.add ⟨"b", ⟨[]⟩⟩,
        Op.remove ⟨"a", ⟨[]⟩⟩]).Service "b").2 = true ∧
    ((ManagedServices.run [Op.add ⟨"a", ⟨[]⟩⟩, Op.add ⟨"b", ⟨[]⟩⟩,
        Op.remove ⟨"a", ⟨[]⟩⟩]).KeyedByID ∧
      ∃ c : Service,
        ((ManagedServices.run [Op.add ⟨"a", ⟨[]⟩⟩, Op.add ⟨"b", ⟨[]⟩⟩,
          Op.remove ⟨"a", ⟨[]⟩⟩]).Service "b").1 = some c ∧ c.ID = "b") :=
  ⟨by decide,
   service_id_is_key [Op.add ⟨"a", ⟨[]⟩⟩, Op.add ⟨"b", ⟨[]⟩⟩, Op.remove ⟨"a", ⟨[]⟩⟩] "b"
     (by decide)⟩

/-! ## Frame and round trip of add and remove -/

theorem get_add_ne (r : Services) (s : Service) (id : String) (h : id ≠ s.ID) :
    (r.add s).1.items.get id = r.items.get id := by
  cases hg : r.items.get s.ID with
  | none =>
    rw [add_of_none r s hg]
    exact GoMap.get_set_ne _ _ _ _ h
  | some old => rw [add_of_some r s old hg]

theorem get_remove_ne (r : Services) (s : Service) (id : String) (h : id ≠ s.ID) :
    (r.remove s).1.items.get id = r.items.get id := by
  cases hg : r.items.get s.ID with
  | none => rw [remove_of_none r s hg]
  | some old =>
    rw [remove_of_some r s old hg]
    exact GoMap.get_delete_ne _ _ _ h

theorem service_congr (r q : Services) (id : String) (h : q.items.get id = r.items.get id) :
    q.Service id = r.Service id := by
  simp [Services.Service, h]

/-- C18: for every registry, service `s` and id other than the ID of `s`,
`Service id` returns after `add s` and after `remove s`, whether the call
succeeded or failed, what it returned before. -/
theorem add_remove_frame (r : Services) (s : Service) (id : String) (h : id ≠ s.ID) :
    (r.add s).1.Service id = r.Service id ∧ (r.remove s).1.Service id = r.Service id :=
  ⟨service_congr _ _ id (get_add_ne r s id h), service_congr _ _ id (get_remove_ne r s id h)⟩

theorem add_remove_frame_witness :
    "a" ≠ (⟨"b", ⟨[]⟩⟩ : Service).ID ∧
    (((ManagedServices.add ⟨"a", ⟨[none]⟩⟩).1.add ⟨"b", ⟨[]⟩⟩).1.Service "a"
        = (ManagedServices.add ⟨"a", ⟨[none]⟩⟩).1.Service "a" ∧
      ((ManagedServices.add ⟨"a", ⟨[none]⟩⟩).1.remove ⟨"b", ⟨[]⟩⟩).1.Service "a"
        = (ManagedServices.add ⟨"a", ⟨[none]⟩⟩).1.Service "a") :=
  ⟨by decide,
   add_remove_frame (ManagedServices.add ⟨"a", ⟨[none]⟩⟩).1 ⟨"b", ⟨[]⟩⟩ "a" (by decide)⟩

theorem GoMap.ext_entries {V : Type} (m n : GoMap V) (h : m.entries = n.entries) : m = n := by
  cases m
  cases n
  cases h
  rfl

theorem dropKey_idem {V : Type} (k : String) (l : List (String × V)) :
    dropKey k (dropKey k l) = dropKey k l := by
  simp [dropKey, List.filter_filter]

theorem round_trip_entries (r : Services) (s : Service) (h : r.items.get s.ID = none) :
    ((r.add s).1.remove s).1.items.entries = dropKey s.ID r.items.entries := by
  rw [add_of_none r s h]
  have hg : ({ items := r.items.set s.ID (some s) } : Services).items.get s.ID = some s :=
    GoMap.get_set_self _ _ _
  rw [remove_of_some _ s s hg]
  have hd : dropKey s.ID ((s.ID, some s) :: dropKey s.ID r.items.entries)
      = dropKey s.ID (dropKey s.ID r.items.entries) := by simp [dropKey]
  simp only [GoMap.delete, GoMap.set]
  rw [hd, dropKey_idem]

/-- C19: when the registry holds no entry under the ID of `s`, `add s` and
then `remove s` both return no error, and the registry they leave is the one
before: the same registered services, the same result of `Service` for every
id, the same contents of `AllServices` and of `AllMethods`; when the ID of `s`
is not a key of the map at all, it is the same map. -/
theorem add_remove_round_trip (r : Services) (s : Service) (h : r.items.get s.ID = none) :
    (r.add s).2 = none ∧ ((r.add s).1.remove s).2 = none ∧
      ((r.add s).1.remove s).1.registered = r.registered ∧
      (∀ id, ((r.add s).1.remove s).1.Service id = r.Service id) ∧
      (∀ o o₀ : RangeOrder (String × Option Service),
        (((r.add s).1.remove s).1.AllServices o).Perm (r.AllServices o₀)) ∧
      (∀ (o o₀ : RangeOrder (String × Option Service))
          (oi oi₀ : String → RangeOrder (Option Method)),
        (((r.add s).1.remove s).1.AllMethods o oi).Perm (r.AllMethods o₀ oi₀)) ∧
      (s.ID ∉ r.items.entries.map Prod.fst → ((r.add s).1.remove s).1 = r) := by
  have he := round_trip_entries r s h
  have hreg : ((r.add s).1.remove s).1.registered = r.registered := by
    rw [Services.registered, he]
    exact filterMap_dropKey s.ID r.items.entries r.items.nodup h
  have hadd : (r.add s).1.items.get s.ID = some s := by
    rw [add_of_none r s h]
    exact GoMap.get_set_self _ _ _
  refine ⟨by rw [add_of_none r s h], by rw [remove_of_some _ s s hadd], hreg, fun id => ?_,
    fun o o₀ => ?_, fun o o₀ oi oi₀ => ?_, fun hk => ?_⟩
  · refine service_congr _ _ id ?_
    by_cases hid : id = s.ID
    · subst hid
      rw [remove_of_some _ s s hadd, h]
      exact GoMap.get_delete_self _ _
    · rw [get_remove_ne _ s id hid, get_add_ne r s id hid]
  · refine (allServices_perm _ o).trans ?_
    rw [hreg]
    exact (allServices_perm r o₀).symm
  · refine (allMethods_perm _ o oi).trans ?_
    rw [Services.registeredMethods, hreg]
    exact (allMethods_perm r o₀ oi₀).symm
  · have hm : ((r.add s).1.remove s).1.items = r.items :=
      GoMap.ext_entries _ _ (he.trans (dropKey_of_not_mem s.ID r.items.entries hk))
    cases hr : ((r.add s).1.remove s).1
    rw [hr] at hm
    cases r
    cases hm
    rfl

theorem add_remove_round_trip_witness :
    (ManagedServices.add ⟨"a", ⟨[none]⟩⟩).1.items.get (⟨"b", ⟨[]⟩⟩ : Service).ID = none ∧
    (⟨"b", ⟨[]⟩⟩ : Service).ID ∉
      (ManagedServices.add ⟨"a", ⟨[none]⟩⟩).1.items.entries.map Prod.fst ∧
    ((((ManagedServices.add ⟨"a", ⟨[none]⟩⟩).1.add ⟨"b", ⟨[]⟩⟩).1.remove ⟨"b", ⟨[]⟩⟩).2 = none ∧
      (((ManagedServices.add ⟨"a", ⟨[none]⟩⟩).1.add ⟨"b", ⟨[]⟩⟩).1.remove ⟨"b", ⟨[]⟩⟩).1
        = (ManagedServices.add ⟨"a", ⟨[none]⟩⟩).1) :=
  have hw := add_remove_round_trip (ManagedServices.add ⟨"a", ⟨[none]⟩⟩).1 ⟨"b", ⟨[]⟩⟩
    (by decide)
  ⟨by decide, by decide, hw.2.1, hw.2.2.2.2.2.2 (by decide)⟩

/-! ## What the calls leave untouched -/

theorem foldl_invariant {σ α : Type} (P : σ → Prop) (f : σ → α → σ)
    (hf : ∀ s a, P s → P (f s a)) (l : List α) (s : σ) (hs : P s) : P (l.foldl f s) := by
  induction l generalizing s with
  | nil => exact hs
  | cons a l ih => exact ih (f s a) (hf s a hs)

theorem world_allServices_items (w : World) (o : RangeOrder (String × Option Nat)) :
    (w.AllServices o).2.items = w.items ∧ (w.AllServices o).2.calls = w.calls := by
  refine foldl_invariant (fun acc : List Nat × World => acc.2.items = w.items ∧ acc.2.calls = w.calls)
    _ ?_ _ _ ⟨rfl, rfl⟩
  intro acc e h
  cases he : e.2 <;> simpa [he] using h

theorem world_allMethods_state (w : World) (o : RangeOrder (String × Option Nat))
    (oi : String → RangeOrder (Option Method)) : (w.AllMethods o oi).2 = w := by
  refine foldl_invariant (fun acc : List (Option Method) × World => acc.2 = w) _ ?_ _ _ rfl
  intro acc e h
  cases he : e.2 <;> simpa [he] using h

theorem world_stop_loop_items (w₀ : World) (f : Service → Service) (g : Nat → Signal)
    (l : List (String × Option Nat)) :
    (l.foldl
      (fun (w : World) e =>
        match e.2 with
        | some a =>
          { w with heap := w.heap.store a (f (w.heap.cell a)), calls := w.calls ++ [g a] }
        | none => w)
      w₀).items = w₀.items := by
  refine foldl_invariant (fun w : World => w.items = w₀.items) _ ?_ _ _ rfl
  intro w e h
  cases he : e.2 <;> simpa [he] using h

theorem world_stopAll_items (w : World) (lc : Lifecycle)
    (o₁ o₂ : RangeOrder (String × Option Nat)) : (w.stopAll lc o₁ o₂).2.items = w.items := by
  simp only [World.stopAll]
  rw [world_stop_loop_items _ lc.wait Signal.wait, world_stop_loop_items _ lc.Stop Signal.Stop]

/-- The log is live: on a registry of two services `stopAll` logs two `Stop`
calls and then two `wait` calls, and registering changes the map. -/
theorem world_stopAll_logs :
    (((World.init.register ⟨"a", ⟨[]⟩⟩).register ⟨"b", ⟨[]⟩⟩).stopAll ⟨fun s => s, fun s => s⟩
        (RangeOrder.stored _) (RangeOrder.backwards _)).2.calls
      = [Signal.Stop 1, Signal.Stop 0, Signal.wait 0, Signal.wait 1] ∧
    ((World.init.register ⟨"a", ⟨[]⟩⟩).register ⟨"b", ⟨[]⟩⟩).items.entries
      = [("b", some 1), ("a", some 0)] := by
  decide

/-- C12: for every state, `Service id`, `AllServices`, `AllMethods`,
`Method id` and `stopAll` leave the map `items` as it was, whatever `Stop` and
`wait` do to the services they are called on; after `stopAll` the registered
pointers are those before it. -/
theorem reads_keep_items (w : World) (lc : Lifecycle) (id : String)
    (o o₁ o₂ : RangeOrder (String × Option Nat)) (oi : String → RangeOrder (Option Method)) :
    (w.Service id).2.items = w.items ∧ (w.AllServices o).2.items = w.items ∧
      (w.AllMethods o oi).2.items = w.items ∧ (w.Method o oi id).2.items = w.items ∧
      (w.stopAll lc o₁ o₂).2.items = w.items ∧
      (w.stopAll lc o₁ o₂).2.items.entries.filterMap Prod.snd
        = w.items.entries.filterMap Prod.snd := by
  refine ⟨?_, (world_allServices_items w o).1, by rw [world_allMethods_state], ?_,
    world_stopAll_items w lc o₁ o₂, by rw [world_stopAll_items]⟩
  · unfold World.Service
    cases w.items.get id <;> rfl
  · unfold World.Method
    split
    · rfl
    · simp only [world_allMethods_state]

/-- C16: for every state and service, `remove` issues no `Stop` and no `wait`
call, on any service: the log of calls after it is the log before it.  It
leaves every service struct as it was, and the map is either unchanged or the
map with the binding of that ID deleted. -/
theorem remove_issues_no_call (w : World) (service : Nat) :
    (w.remove service).2.calls = w.calls ∧ (w.remove service).2.heap = w.heap ∧
      ((w.remove service).2.items = w.items ∨
        (w.remove service).2.items = w.items.delete (w.heap.cell service).ID) := by
  cases hg : w.items.get (w.heap.cell service).ID with
  | none => simp [World.remove, hg]
  | some a => simp [World.remove, hg]

/-! ## Copies -/

theorem world_service_of_some (w : World) (id : String) (a : Nat)
    (h : w.items.get id = some a) :
    (w.Service id).1 = (some w.heap.next, true) ∧ (w.Service id).2.items = w.items ∧
      (w.Service id).2.heap.cell w.heap.next = w.heap.cell a ∧
      ∀ b, b ≠ w.heap.next → (w.Service id).2.heap.cell b = w.heap.cell b := by
  refine ⟨?_, ?_, ?_, fun b hb => ?_⟩ <;>
    simp [World.Service, h, Heap.copy, Heap.new, Service.copy_eq]
  exact fun hb' => absurd hb' hb

theorem world_allServices_fresh (w : World) (o : RangeOrder (String × Option Nat)) :
    w.heap.next ≤ (w.AllServices o).2.heap.next ∧
      (∀ b < w.heap.next, (w.AllServices o).2.heap.cell b = w.heap.cell b) ∧
      ∀ p ∈ (w.AllServices o).1, w.heap.next ≤ p := by
  refine foldl_invariant
    (fun acc : List Nat × World => w.heap.next ≤ acc.2.heap.next ∧
      (∀ b < w.heap.next, acc.2.heap.cell b = w.heap.cell b) ∧ ∀ p ∈ acc.1, w.heap.next ≤ p)
    _ ?_ _ _ ⟨Nat.le_refl _, fun _ _ => rfl, fun p hp => by cases hp⟩
  intro acc e ⟨h1, h2, h3⟩
  cases he : e.2 with
  | none => simpa [he] using ⟨h1, h2, h3⟩
  | some a =>
    simp only [he, Heap.copy, Heap.new]
    refine ⟨Nat.le_succ_of_le h1, fun b hb => ?_, fun p hp => ?_⟩
    · have hne : b ≠ acc.2.heap.next := Nat.ne_of_lt (Nat.lt_of_lt_of_le hb h1)
      simp [hne, h2 b hb]
    · rcases List.mem_append.1 hp with hp | hp
      · exact h3 p hp
      · rw [List.mem_singleton.1 hp]
        exact h1

theorem poke_then_service (w u : World) (id : String) (a p : Nat) (v : Service)
    (hi : u.items = w.items) (hc : u.heap.cell a = w.heap.cell a) (hp : p ≠ a)
    (h : w.items.get id = some a) :
    (u.poke p v).heap.cell a = w.heap.cell a ∧
      ∃ c, ((u.poke p v).Service id).1 = (some c, true) ∧
        ((u.poke p v).Service id).2.heap.cell c = w.heap.cell a := by
  have hcell : (u.poke p v).heap.cell a = w.heap.cell a := by
    simp [World.poke, Heap.store, Ne.symm hp, hc]
  have hget : (u.poke p v).items.get id = some a := by
    simpa [World.poke, hi] using h
  obtain ⟨h1, _, h3, _⟩ := world_service_of_some (u.poke p v) id a hget
  exact ⟨hcell, _, h1, h3.trans hcell⟩

/-- C14: in a state whose map holds allocated structs only, with a service
stored at address `a` under `id`: `Service id` returns the address of a new
struct, not `a`, with the contents of the stored one, and so does every
element of `AllServices`; after the caller overwrites the struct it was given
with any `v`, the stored struct is as before and `Service id` again returns a
copy equal to the service originally stored. -/
theorem copy_isolation (w : World) (id : String) (a : Nat) (v : Service)
    (o : RangeOrder (String × Option Nat)) (hwf : w.WF) (h : w.items.get id = some a) :
    (∃ c, (w.Service id).1 = (some c, true) ∧ c ≠ a ∧
        (w.Service id).2.heap.cell c = w.heap.cell a ∧
        ((w.Service id).2.poke c v).heap.cell a = w.heap.cell a ∧
        ∃ c₁, (((w.Service id).2.poke c v).Service id).1 = (some c₁, true) ∧
          (((w.Service id).2.poke c v).Service id).2.heap.cell c₁ = w.heap.cell a) ∧
      ∀ p ∈ (w.AllServices o).1, p ≠ a ∧
        ((w.AllServices o).2.poke p v).heap.cell a = w.heap.cell a ∧
        ∃ c₁, (((w.AllServices o).2.poke p v).Service id).1 = (some c₁, true) ∧
          (((w.AllServices o).2.poke p v).Service id).2.heap.cell c₁ = w.heap.cell a := by
  have ha : a < w.heap.next :=
    hwf (id, some a) ((GoMap.get_eq_some_iff _ _ _).1 h) a rfl
  obtain ⟨h1, h2, h3, h4⟩ := world_service_of_some w id a h
  have hne : w.heap.next ≠ a := Nat.ne_of_gt ha
  refine ⟨⟨w.heap.next, h1, hne, h3, ?_⟩, fun p hp => ?_⟩
  · exact poke_then_service w _ id a _ v h2 (h4 a (Ne.symm hne)) hne h
  · obtain ⟨_, g2, g3⟩ := world_allServices_fresh w o
    have hpa : p ≠ a := Nat.ne_of_gt (Nat.lt_of_lt_of_le ha (g3 p hp))
    exact ⟨hpa, poke_then_service w _ id a p v (world_allServices_items w o).1 (g2 a ha) hpa h⟩

theorem copy_isolation_witness :
    (World.init.register ⟨"a", ⟨[none]⟩⟩).WF ∧
    (World.init.register ⟨"a", ⟨[none]⟩⟩).items.get "a" = some 0 ∧
    ((World.init.register ⟨"a", ⟨[none]⟩⟩).Service "a").1 = (some 1, true) ∧
    ((((World.init.register ⟨"a", ⟨[none]⟩⟩).Service "a").2.poke 1 ⟨"z", ⟨[]⟩⟩).Service "a").1
      = (some 2, true) ∧
    ((((World.init.register ⟨"a", ⟨[none]⟩⟩).Service "a").2.poke 1 ⟨"z", ⟨[]⟩⟩).Service "a").2.heap.cell 2
      = ⟨"a", ⟨[none]⟩⟩ ∧
    ∀ p ∈ ((World.init.register ⟨"a", ⟨[none]⟩⟩).AllServices (RangeOrder.stored _)).1, p ≠ 0 ∧
      (((World.init.register ⟨"a", ⟨[none]⟩⟩).AllServices (RangeOrder.stored _)).2.poke p
          ⟨"z", ⟨[]⟩⟩).heap.cell 0
        = (World.init.register ⟨"a", ⟨[none]⟩⟩).heap.cell 0 ∧
      ∃ c₁, ((((World.init.register ⟨"a", ⟨[none]⟩⟩).AllServices (RangeOrder.stored _)).2.poke p
          ⟨"z", ⟨[]⟩⟩).Service "a").1 = (some c₁, true) ∧
        ((((World.init.register ⟨"a", ⟨[none]⟩⟩).AllServices (RangeOrder.stored _)).2.poke p
          ⟨"z", ⟨[]⟩⟩).Service "a").2.heap.cell c₁
          = (World.init.register ⟨"a", ⟨[none]⟩⟩).heap.cell 0 :=
  ⟨by unfold World.WF; decide, by decide, by decide, by decide, by decide,
   (copy_isolation (World.init.register ⟨"a", ⟨[none]⟩⟩) "a" 0 ⟨"z", ⟨[]⟩⟩
     (RangeOrder.stored _) (by unfold World.WF; decide) (by decide)).2⟩

/-! ## Method lookup with pointers -/

theorem world_inner_fold (l : List (Option Method)) (acc : List (Option Method)) :
    l.foldl
      (fun methods m =>
        match m with
        | some m => methods ++ [some m]
        | none => methods)
      acc = acc ++ (l.filterMap id).map some := by
  induction l generalizing acc with
  | nil => simp
  | cons m l ih => cases m <;> simp only [List.foldl_cons] <;> rw [ih] <;> simp

theorem world_allMethods_fold (w : World) (oi : String → RangeOrder (Option Method))
    (l : List (String × Option Nat)) (acc : List (Option Method)) :
    l.foldl
      (fun (acc : List (Option Method) × World) e =>
        match e.2 with
        | some a =>
          (((oi e.1).visit (acc.2.heap.cell a).Methods.list).foldl
            (fun methods m =>
              match m with
              | some m => methods ++ [some m]
              | none => methods)
            acc.1, acc.2)
        | none => acc)
      (acc, w)
      = (acc ++ ((l.map fun e => (e.1, e.2.map w.heap.cell)).flatMap (visitMethods oi)).map some,
          w) := by
  induction l generalizing acc with
  | nil => simp
  | cons e l ih =>
    obtain ⟨k, p⟩ := e
    cases p <;> simp only [List.foldl_cons] <;> rw [ih] <;>
      simp [visitMethods, world_inner_fold]

theorem world_allMethods_view (w : World) (o : RangeOrder (String × Option Nat))
    (oi : String → RangeOrder (Option Method)) :
    (w.AllMethods o oi).1 = (w.view.AllMethods (w.viewOrder o) oi).map some := by
  have hv : (w.viewOrder o).visit w.view.items.entries
      = (o.visit w.items.entries).map fun e => (e.1, e.2.map w.heap.cell) := by
    simp [World.viewOrder]
  rw [allMethods_eq, hv, World.AllMethods, world_allMethods_fold]
  simp

theorem scanMethods_some (id : String) (l : List Method) (acc : Option Method) :
    scanMethods id (l.map some) acc
      = Except.ok (l.foldl
          (fun method m => if m.ID = id then some { ID := m.ID, rest := m.rest } else method)
          acc) := by
  induction l generalizing acc with
  | nil => rfl
  | cons m l ih =>
    simp only [List.map_cons, scanMethods, List.foldl_cons]
    exact ih _

theorem world_method_view (w : World) (o : RangeOrder (String × Option Nat))
    (oi : String → RangeOrder (Option Method)) (id : String) :
    (w.Method o oi id).1 = Except.ok (w.view.Method (w.viewOrder o) oi id) := by
  unfold World.Method Services.Method
  by_cases hb : TrimSpace id = ""
  · simp [hb]
  · simp only [hb, if_false]
    rw [world_allMethods_view, scanMethods_some]

/-- C20: for every registry, every order of visit and every id that is not
blank, `Method id` returns a method exactly when some registered service has a
non-nil method with that ID, and a method it returns has the ID `id`.  The
slice `AllMethods` returns holds no nil pointer, so the scan reads no `ID`
through nil: with pointers kept, `Method id` ends without a run-time error, on
the result computed on the values. -/
theorem method_found_iff (r : Services) (o : RangeOrder (String × Option Service))
    (oi : String → RangeOrder (Option Method)) (id : String) (h : TrimSpace id ≠ "") :
    (r.Method o oi id ≠ none ↔
        ∃ sv ∈ r.registered, ∃ m : Method, some m ∈ sv.Methods.list ∧ m.ID = id) ∧
      (∀ m : Method, r.Method o oi id = some m → m.ID = id) ∧
      ∀ (w : World) (ow : RangeOrder (String × Option Nat)),
        (∀ p ∈ (w.AllMethods ow oi).1, p ≠ none) ∧
          (w.Method ow oi id).1 = Except.ok (w.view.Method (w.viewOrder ow) oi id) := by
  have hl := method_eq_last r o oi id h
  refine ⟨?_, fun m hm => ?_, fun w ow => ⟨fun p hp => ?_, world_method_view w ow oi id⟩⟩
  · rw [hl, Ne, List.getLast?_eq_none_iff, List.filter_eq_nil_iff]
    constructor
    · intro hne
      by_contra hex
      refine hne fun m hm hid => hex ?_
      have hm' := (mem_registeredMethods_iff r m).1 ((allMethods_perm r o oi).mem_iff.1 hm)
      obtain ⟨sv, hsv, hmem⟩ := hm'
      exact ⟨sv, hsv, m, hmem, by simpa using hid⟩
    · rintro ⟨sv, hsv, m, hmem, hid⟩ hall
      have hm : m ∈ r.AllMethods o oi :=
        (allMethods_perm r o oi).mem_iff.2 ((mem_registeredMethods_iff r m).2 ⟨sv, hsv, hmem⟩)
      exact hall m hm (by simpa using hid)
  · rw [hl] at hm
    have hmem := List.mem_of_getLast?_eq_some hm
    simpa using (List.mem_filter.1 hmem).2
  · rw [world_allMethods_view] at hp
    rcases List.mem_map.1 hp with ⟨m, _, rfl⟩
    exact fun hc => by cases hc

theorem method_found_iff_witness :
    TrimSpace "m3" ≠ "" ∧
    (∃ sv ∈ (ManagedServices.addAll [⟨"svc-a", ⟨[some ⟨"m1", 0⟩, none]⟩⟩,
        ⟨"svc-b", ⟨[some ⟨"m3", 1⟩]⟩⟩]).1.registered,
      ∃ m : Method, some m ∈ sv.Methods.list ∧ m.ID = "m3") ∧
    (ManagedServices.addAll [⟨"svc-a", ⟨[some ⟨"m1", 0⟩, none]⟩⟩,
        ⟨"svc-b", ⟨[some ⟨"m3", 1⟩]⟩⟩]).1.Method
      (RangeOrder.backwards _) (fun _ => RangeOrder.stored _) "m3" ≠ none :=
  have hex : ∃ sv ∈ (ManagedServices.addAll [⟨"svc-a", ⟨[some ⟨"m1", 0⟩, none]⟩⟩,
        ⟨"svc-b", ⟨[some ⟨"m3", 1⟩]⟩⟩]).1.registered,
      ∃ m : Method, some m ∈ sv.Methods.list ∧ m.ID = "m3" :=
    ⟨⟨"svc-b", ⟨[some ⟨"m3", 1⟩]⟩⟩, by decide, ⟨"m3", 1⟩, by decide, rfl⟩
  ⟨by decide, hex,
   (method_found_iff (ManagedServices.addAll [⟨"svc-a", ⟨[some ⟨"m1", 0⟩, none]⟩⟩,
      ⟨"svc-b", ⟨[some ⟨"m3", 1⟩]⟩⟩]).1 (RangeOrder.backwards _)
      (fun _ => RangeOrder.stored _) "m3" (by decide)).1.2 hex⟩

/-! ## The two levels agree -/

theorem lookup_map_snd {V W : Type} (g : V → W) (k : String) (l : List (String × V)) :
    (l.map fun e => (e.1, g e.2)).lookup k = (l.lookup k).map g := by
  induction l with
  | nil => rfl
  | cons e l ih =>
    obtain ⟨a, v⟩ := e
    by_cases hk : k = a
    · subst hk
      simp
    · have hb : (k == a) = false := by simpa using hk
      simp [List.lookup_cons, hb, ih]

theorem dropKey_map_snd {V W : Type} (g : V → W) (k : String) (l : List (String × V)) :
    dropKey k (l.map fun e => (e.1, g e.2)) = (dropKey k l).map fun e => (e.1, g e.2) := by
  simp [dropKey, List.filter_map, Function.comp_def]

theorem view_get (w : World) (id : String) :
    w.view.items.get id = (w.items.get id).map w.heap.cell := by
  simp only [World.view, GoMap.get, lookup_map_snd]
  cases w.items.entries.lookup id with
  | none => rfl
  | some p => cases p <;> rfl

theorem view_service (w : World) (id : String) :
    (w.Service id).1.2 = (w.view.Service id).2 ∧
      (w.Service id).1.1.map (w.Service id).2.heap.cell = (w.view.Service id).1 := by
  cases hg : w.items.get id with
  | none =>
    have hv : w.view.items.get id = none := by rw [view_get, hg]; rfl
    rw [service_of_none _ id hv]
    simp [World.Service, hg]
  | some a =>
    have hv : w.view.items.get id = some (w.heap.cell a) := by rw [view_get, hg]; rfl
    obtain ⟨h1, _, h3, _⟩ := world_service_of_some w id a hg
    rw [service_of_some _ id _ hv, h1]
    exact ⟨rfl, congrArg some h3⟩

theorem view_add (w : World) (a : Nat) :
    (w.add a).1 = (w.view.add (w.heap.cell a)).2 ∧
      (w.add a).2.view = (w.view.add (w.heap.cell a)).1 := by
  cases hg : w.items.get (w.heap.cell a).ID with
  | none =>
    have hv : w.view.items.get (w.heap.cell a).ID = none := by rw [view_get, hg]; rfl
    rw [add_of_none _ _ hv]
    simp only [World.add, hg]
    refine ⟨trivial, congrArg Services.mk (GoMap.ext_entries _ _ ?_)⟩
    simp [World.view, GoMap.set, dropKey_map_snd]
  | some b =>
    have hv : w.view.items.get (w.heap.cell a).ID = some (w.heap.cell b) := by
      rw [view_get, hg]; rfl
    rw [add_of_some _ _ _ hv]
    simp [World.add, hg]

theorem view_remove (w : World) (a : Nat) :
    (w.remove a).1 = (w.view.remove (w.heap.cell a)).2 ∧
      (w.remove a).2.view = (w.view.remove (w.heap.cell a)).1 := by
  cases hg : w.items.get (w.heap.cell a).ID with
  | none =>
    have hv : w.view.items.get (w.heap.cell a).ID = none := by rw [view_get, hg]; rfl
    rw [remove_of_none _ _ hv]
    simp [World.remove, hg]
  | some b =>
    have hv : w.view.items.get (w.heap.cell a).ID = some (w.heap.cell b) := by
      rw [view_get, hg]; rfl
    rw [remove_of_some _ _ _ hv]
    simp only [World.remove, hg]
    refine ⟨trivial, congrArg Services.mk (GoMap.ext_entries _ _ ?_)⟩
    simp [World.view, GoMap.delete, dropKey_map_snd]

end Alkasir
